import Mathlib

/-!
Shallow embedding of the core of the vokt-vscode extension:
the change classifier (`src/changeFilter.ts`), the idle edit buffer
(`src/editBuffer.ts`), the LRU symbol cache and scope tracker
(`src/extension.ts` / `scopeTracker`), and the `SmartDiagnostics`
orchestrator state (dispatch statistics and failure backoff).

Editor-API values (positions, ranges, documents) are modelled as
immutable value types; the behaviour of `vscode.Range`,
`TextDocument.getText` (range clamping) and `TextDocument.lineAt`
(throwing on an out-of-range line) follows the editor host's
implementation.  Fallible operations return `Except String`.
-/

set_option autoImplicit false

namespace Vokt

/-- Zero-based line/character position (`vscode.Position`). -/
structure Pos where
  line : Nat
  character : Nat
deriving DecidableEq, Repr

/-- Model of `Position.isBefore`: strict lexicographic order, line first. -/
def Pos.isBefore (p q : Pos) : Bool :=
  p.line < q.line || (p.line == q.line && p.character < q.character)

/-- Model of `Position.isBeforeOrEqual`. -/
def Pos.isBeforeOrEqual (p q : Pos) : Bool :=
  p.line < q.line || (p.line == q.line && p.character ≤ q.character)

/-- A text range `[start, stop]`; the source's `end` field is called
`stop` here because `end` is a Lean keyword. -/
structure Range where
  start : Pos
  stop : Pos
deriving DecidableEq, Repr

/-- Model of `vscode.Range` constructor: swaps the endpoints when given in the
wrong order. -/
def mkRange (a b : Pos) : Range :=
  if a.isBeforeOrEqual b then ⟨a, b⟩ else ⟨b, a⟩

/-- Model of `Range.contains(position)`: inclusive at both endpoints. -/
def Range.containsPos (r : Range) (p : Pos) : Bool :=
  !(p.isBefore r.start) && !(r.stop.isBefore p)

/-- Model of `Range.contains(range)`: containment of both endpoints. -/
def Range.containsRange (r other : Range) : Bool :=
  r.containsPos other.start && r.containsPos other.stop

/-- Snapshot of an editor text document: language, content as a list
of lines (an editor document always has at least one line), version
counter, and the string form of its URI. -/
structure TextDocument where
  languageId : String
  lines : List String
  version : Nat
  uriStr : String
deriving Repr

/-- The host's `validatePosition`: a line beyond the document clamps
to the end of the last line; otherwise the character clamps to the
line length. -/
def TextDocument.validatePos (doc : TextDocument) (p : Pos) : Pos :=
  if p.line ≥ doc.lines.length then
    let l := doc.lines.length - 1
    ⟨l, (doc.lines.getD l "").length⟩
  else
    ⟨p.line, min p.character (doc.lines.getD p.line "").length⟩

/-- Model of `TextDocument.lineAt`: returns the line's text, or throws
("Illegal value for line") when the line number is out of range. -/
def TextDocument.lineAt (doc : TextDocument) (i : Nat) : Except String String :=
  if i < doc.lines.length then .ok (doc.lines.getD i "")
  else .error "Illegal value for line"

/-- Model of `TextDocument.getText(range)`: validates (clamps and reorders) the
range, then extracts the covered text, joining lines with a newline. -/
def TextDocument.getText (doc : TextDocument) (r : Range) : String :=
  let v := mkRange (doc.validatePos r.start) (doc.validatePos r.stop)
  if v.start.line == v.stop.line then
    String.mk (((doc.lines.getD v.start.line "").toList.drop v.start.character).take
      (v.stop.character - v.start.character))
  else
    let first := String.mk ((doc.lines.getD v.start.line "").toList.drop v.start.character)
    let last := String.mk ((doc.lines.getD v.stop.line "").toList.take v.stop.character)
    let middle := (doc.lines.drop (v.start.line + 1)).take (v.stop.line - v.start.line - 1)
    String.intercalate "\n" (first :: middle ++ [last])

/-- JavaScript's `\s` character class (ASCII part, which is all the
source relies on). -/
def isWsChar (c : Char) : Bool :=
  c == ' ' || c == '\t' || c == '\n' || c == '\r' || c == '\x0b' || c == '\x0c'

/-- JavaScript `String.prototype.trim`. -/
def jsTrim (s : String) : String :=
  String.mk (((s.toList.dropWhile isWsChar).reverse.dropWhile isWsChar).reverse)

/-- Model of `text.replace(/\s+/g, '')`: drop every whitespace character. -/
def stripWs (s : String) : String :=
  String.mk (s.toList.filter (fun c => !isWsChar c))

/-- Index of the first occurrence of `pat` as a contiguous sublist. -/
def firstIdxOf (pat : List Char) : List Char → Option Nat
  | [] => if pat.isEmpty then some 0 else none
  | c :: rest =>
    if List.isPrefixOf pat (c :: rest) then some 0
    else (firstIdxOf pat rest).map (· + 1)

/-- Model of `String.prototype.search` for a fixed substring pattern. -/
def searchSub (pat s : String) : Option Nat := firstIdxOf pat.toList s.toList

/-- Regex `test` for a fixed (unanchored) substring pattern. -/
def containsSub (pat s : String) : Bool := (searchSub pat s).isSome

/-! ## ChangeFilter (`src/changeFilter.ts`) -/

/-- The per-language comment regexes of `COMMENT_PATTERNS`, embedded as
string predicates.  `blockStartSearch` is `String.search` for the
block-start pattern (only consulted after a successful `test`). -/
structure CommentPatterns where
  lineTest : String → Bool
  blockStartTest : String → Bool
  blockStartSearch : String → Nat
  blockEndTest : String → Bool

/-- Model of `/^\s*\/\//`, `/\/\*/`, `/\*\//` — shared by go, javascript,
typescript, java, rust, c and cpp. -/
def slashPatterns : CommentPatterns where
  lineTest := fun s => List.isPrefixOf "//".toList (s.toList.dropWhile isWsChar)
  blockStartTest := fun s => containsSub "/*" s
  blockStartSearch := fun s => (searchSub "/*" s).getD 0
  blockEndTest := fun s => containsSub "*/" s

/-- Three single-quote characters (written via `Char.ofNat` to keep the
file free of quote-literal noise). -/
def triSingleQuote : String := String.mk (List.replicate 3 (Char.ofNat 39))

/-- Python: line `/^\s*#/`, block start `/^(\s*"""|\s*''')/` (anchored,
so a successful search is at index 0), block end `/("""|''')\s*$/`. -/
def pythonPatterns : CommentPatterns where
  lineTest := fun s => List.isPrefixOf "#".toList (s.toList.dropWhile isWsChar)
  blockStartTest := fun s =>
    let t := s.toList.dropWhile isWsChar
    List.isPrefixOf "\"\"\"".toList t || List.isPrefixOf triSingleQuote.toList t
  blockStartSearch := fun _ => 0
  blockEndTest := fun s =>
    let t := (s.toList.reverse.dropWhile isWsChar).reverse
    List.isSuffixOf "\"\"\"".toList t || List.isSuffixOf triSingleQuote.toList t

/-- Model of `COMMENT_PATTERNS[languageId]`. -/
def commentPatterns (languageId : String) : Option CommentPatterns :=
  if languageId == "go" || languageId == "javascript" || languageId == "typescript"
      || languageId == "java" || languageId == "rust" || languageId == "c"
      || languageId == "cpp" then
    some slashPatterns
  else if languageId == "python" then
    some pythonPatterns
  else
    none

/-- Model of `FilterConfig`. -/
structure FilterConfig where
  ignoreComments : Bool
  ignoreWhitespace : Bool
  ignoreFormatting : Bool
deriving DecidableEq, Repr

/-- Model of `DEFAULT_CONFIG`. -/
def defaultFilterConfig : FilterConfig :=
  { ignoreComments := true, ignoreWhitespace := true, ignoreFormatting := true }

/-- One `TextDocumentContentChangeEvent`: the replaced range in the old
document, the replaced length, and the inserted text. -/
structure ContentChange where
  range : Range
  rangeLength : Nat
  text : String
deriving DecidableEq, Repr

/-- Result of `classifySingleChange`. -/
inductive SingleClass
  | code | comment | whitespace | formatting
deriving DecidableEq, Repr

/-- Model of `ChangeClassification.changeType`. -/
inductive ChangeType
  | code | comment | whitespace | formatting | mixed
deriving DecidableEq, Repr

/-- Model of `ChangeClassification`. -/
structure ChangeClassification where
  isSignificant : Bool
  changeType : ChangeType
  affectedRange : Range
deriving DecidableEq, Repr

namespace ChangeFilter

/-- Model of `getOldText`: reads the post-change document at the pre-change range
(`document.getText` never throws — it clamps — so the catch arm of the
source is dead). -/
def getOldText (doc : TextDocument) (range : Range) (_rangeLength : Nat) : String :=
  doc.getText range

/-- Model of `isWhitespaceOnly`, with the source's branch structure. -/
def isWhitespaceOnly (oldText newText : String) : Bool :=
  let oldTrimmed := jsTrim oldText
  let newTrimmed := jsTrim newText
  if oldTrimmed == "" && newTrimmed == "" then true
  else if oldTrimmed == "" || newTrimmed == "" then
    oldTrimmed == "" && newTrimmed == ""
  else false

/-- Model of `isFormattingOnly`. -/
def isFormattingOnly (oldText newText : String) : Bool :=
  stripWs oldText == stripWs newText && oldText != newText

/-- Inner forward loop of `isInComment`: looks for a block-comment
closer on lines `j..hi` (each read via `lineAt`). -/
def scanFwdForBlockEnd (doc : TextDocument) (pats : CommentPatterns)
    (j hi : Nat) : Except String Bool :=
  if h : j > hi then pure false
  else do
    let t ← doc.lineAt j
    if pats.blockEndTest t then pure true
    else scanFwdForBlockEnd doc pats (j + 1) hi
termination_by hi + 1 - j
decreasing_by omega

/-- Body of one iteration of the backward loop of `isInComment`;
`next` is the continuation for the next (lower) line. -/
def scanBackStep (doc : TextDocument) (pats : CommentPatterns) (startLine i : Nat)
    (next : Except String Bool) : Except String Bool := do
  let lineText ← doc.lineAt i
  if i < startLine && pats.blockEndTest lineText then
    pure false
  else if pats.blockStartTest lineText then
    let afterStart := String.mk (lineText.toList.drop (pats.blockStartSearch lineText))
    if !pats.blockEndTest afterStart then do
      let closed ← scanFwdForBlockEnd doc pats (i + 1) startLine
      if closed then pure false else pure true
    else next
  else next

/-- Backward loop of `isInComment`, from line `i` down to 0. -/
def scanBackForBlockStart (doc : TextDocument) (pats : CommentPatterns)
    (startLine : Nat) : Nat → Except String Bool
  | 0 => scanBackStep doc pats startLine 0 (pure false)
  | i + 1 => scanBackStep doc pats startLine (i + 1)
      (scanBackForBlockStart doc pats startLine i)

/-- Model of `isInComment`.  The first `lineAt` throws when the change's start
line lies outside the document. -/
def isInComment (doc : TextDocument) (range : Range) : Except String Bool :=
  match commentPatterns doc.languageId with
  | none => pure false
  | some pats => do
    let line ← doc.lineAt range.start.line
    if pats.lineTest line then pure true
    else scanBackForBlockStart doc pats range.start.line range.start.line

/-- Model of `isCommentText`. -/
def isCommentText (languageId : String) (text : String) : Bool :=
  match commentPatterns languageId with
  | none => false
  | some pats =>
    let trimmed := jsTrim text
    if trimmed == "" then false
    else if pats.lineTest trimmed then true
    else pats.blockStartTest trimmed && pats.blockEndTest trimmed

/-- Model of `classifySingleChange`. -/
def classifySingleChange (doc : TextDocument) (change : ContentChange) :
    Except String SingleClass := do
  let newText := change.text
  let range := change.range
  let oldText := getOldText doc range change.rangeLength
  if isWhitespaceOnly oldText newText then pure .whitespace
  else if isFormattingOnly oldText newText then pure .formatting
  else if (← isInComment doc range) then pure .comment
  else if isCommentText doc.languageId newText then pure .comment
  else pure .code

/-- The private `getCombinedRange` of `ChangeFilter` (initialised from
the first change, then widened by a min/max pass over all changes). -/
def getCombinedRange (changes : List ContentChange) : Range :=
  match changes with
  | [] => ⟨⟨0, 0⟩, ⟨0, 0⟩⟩
  | c0 :: _ =>
    let step := fun (acc : Range) (change : ContentChange) =>
      let s :=
        if change.range.start.line < acc.start.line ||
            (change.range.start.line == acc.start.line &&
              change.range.start.character < acc.start.character) then
          change.range.start
        else acc.start
      let e :=
        if change.range.stop.line > acc.stop.line ||
            (change.range.stop.line == acc.stop.line &&
              change.range.stop.character > acc.stop.character) then
          change.range.stop
        else acc.stop
      Range.mk s e
    changes.foldl step ⟨c0.range.start, c0.range.stop⟩

/-- Model of `ChangeFilter.classify`. -/
def classify (cfg : FilterConfig) (doc : TextDocument)
    (changes : List ContentChange) : Except String ChangeClassification :=
  if changes.length == 0 then
    .ok ⟨false, .whitespace, ⟨⟨0, 0⟩, ⟨0, 0⟩⟩⟩
  else
    let affectedRange := getCombinedRange changes
    match changes.mapM (classifySingleChange doc) with
    | .error e => .error e
    | .ok classifications =>
      let hasCode := classifications.any (· == .code)
      let hasComment := classifications.any (· == .comment)
      let hasWhitespace := classifications.any (· == .whitespace)
      let hasFormatting := classifications.any (· == .formatting)
      let p : ChangeType × Bool :=
        if hasCode then
          (if hasComment || hasWhitespace then .mixed else .code, true)
        else if hasComment && !hasWhitespace && !hasFormatting then
          (.comment, !cfg.ignoreComments)
        else if hasWhitespace && !hasComment && !hasFormatting then
          (.whitespace, !cfg.ignoreWhitespace)
        else if hasFormatting then
          (.formatting, !cfg.ignoreFormatting)
        else
          (.mixed, true)
      .ok ⟨p.2, p.1, affectedRange⟩

end ChangeFilter

/-! ## EditBuffer (`src/editBuffer.ts`)

The `Map<string, …>` fields are modelled as association lists in
insertion order; `Map.get/set/delete` become `lookupEntry`,
`setEntry` and `deleteEntry`.  The single-shot timers are modelled as
the set of URIs with a pending timer; a timer firing is the explicit
transition `onTimerFired`.  The consumer-supplied idle callback is a
state transformer that may throw (`Except`), so that re-entrant calls
into the buffer and thrown exceptions are both expressible. -/

/-- Model of `BufferedEdit`. -/
structure BufferedEdit where
  changes : List ContentChange
  timestamp : Nat
  version : Nat
deriving DecidableEq, Repr

/-- One value of the `buffer` map: latest document snapshot plus the
ordered edits. -/
structure BufEntry where
  document : TextDocument
  edits : List BufferedEdit
deriving Repr

/-- State of an `EditBuffer`: the `buffer` map and the URIs that have a
pending idle timer. -/
structure BufState where
  buffer : List (String × BufEntry)
  timers : List String
deriving Repr

namespace EditBuffer

/-- Model of `Map.get`. -/
def lookupEntry (uri : String) (m : List (String × BufEntry)) : Option BufEntry :=
  (m.find? (fun p => p.1 == uri)).map (·.2)

/-- Model of `Map.set`: replaces in place when the key exists, appends otherwise. -/
def setEntry (uri : String) (e : BufEntry) (m : List (String × BufEntry)) :
    List (String × BufEntry) :=
  if m.any (fun p => p.1 == uri) then
    m.map (fun p => if p.1 == uri then (uri, e) else p)
  else m ++ [(uri, e)]

/-- Model of `Map.delete`. -/
def deleteEntry (uri : String) (m : List (String × BufEntry)) :
    List (String × BufEntry) :=
  m.filter (fun p => !(p.1 == uri))

/-- Model of `cancelTimer` then `setTimeout`: ensure `uri` has a (fresh) pending
timer. -/
def resetTimer (uri : String) (ts : List String) : List String :=
  ts.filter (fun u => !(u == uri)) ++ [uri]

/-- Model of `addEdit`: get-or-create the entry, refresh the stored document,
append the new `BufferedEdit`, and restart the idle timer. -/
def addEdit (doc : TextDocument) (changes : List ContentChange) (now : Nat)
    (s : BufState) : BufState :=
  let uri := doc.uriStr
  let oldEdits := match lookupEntry uri s.buffer with
    | some e => e.edits
    | none => []
  { buffer := setEntry uri ⟨doc, oldEdits ++ [⟨changes, now, doc.version⟩]⟩ s.buffer,
    timers := resetTimer uri s.timers }

/-- Model of `flush(uri)`: cancel the pending timer, remove and return the entry. -/
def flush (uri : String) (s : BufState) : Option BufEntry × BufState :=
  (lookupEntry uri s.buffer,
   { buffer := deleteEntry uri s.buffer,
     timers := s.timers.filter (fun u => !(u == uri)) })

/-- Model of `hasBufferedEdits`. -/
def hasBufferedEdits (uri : String) (s : BufState) : Bool :=
  match lookupEntry uri s.buffer with
  | some e => !e.edits.isEmpty
  | none => false

/-- Model of `getBufferedEditCount`. -/
def getBufferedEditCount (uri : String) (s : BufState) : Nat :=
  match lookupEntry uri s.buffer with
  | some e => e.edits.length
  | none => 0

/-- The consumer idle callback: receives `(uri, document, edits)` and
the buffer state it runs against (it may call back into the buffer);
it may throw. -/
def Callback : Type :=
  String → TextDocument → List BufferedEdit → BufState → Except String BufState

/-- Model of `onTimerFired`: a no-op when the entry is gone or empty; otherwise
the entry is deleted from the map *before* the callback runs, and a
throwing callback is caught (logged) rather than propagated. -/
def onTimerFired (cb : Option Callback) (uri : String) (s : BufState) : BufState :=
  match lookupEntry uri s.buffer with
  | none => s
  | some entry =>
    if entry.edits.isEmpty then s
    else
      let s1 : BufState := { s with buffer := deleteEntry uri s.buffer }
      match cb with
      | none => s1
      | some f =>
        match f uri entry.document entry.edits s1 with
        | .ok s2 => s2
        | .error _ => s1

/-- The timer's own wrapper: drop the fired timer, then run
`onTimerFired`. -/
def fireTimer (cb : Option Callback) (uri : String) (s : BufState) : BufState :=
  if s.timers.any (fun u => u == uri) then
    onTimerFired cb uri { s with timers := s.timers.filter (fun u => !(u == uri)) }
  else s

/-- Model of `Number.MAX_SAFE_INTEGER`, the sentinel initial value of the
min-fold in `getCombinedRange`. -/
def MAX_SAFE_INTEGER : Nat := 9007199254740991

/-- Accumulator of `getCombinedRange`. -/
structure FoldAcc where
  sl : Nat
  sc : Nat
  el : Nat
  ec : Nat
deriving DecidableEq, Repr

/-- One change's contribution to `getCombinedRange`. -/
def combineStep (acc : FoldAcc) (change : ContentChange) : FoldAcc :=
  let a1 :=
    if change.range.start.line < acc.sl ||
        (change.range.start.line == acc.sl && change.range.start.character < acc.sc) then
      { acc with sl := change.range.start.line, sc := change.range.start.character }
    else acc
  if change.range.stop.line > a1.el ||
      (change.range.stop.line == a1.el && change.range.stop.character > a1.ec) then
    { a1 with el := change.range.stop.line, ec := change.range.stop.character }
  else a1

/-- Model of `EditBuffer.getCombinedRange`: min/max over every change of every
edit, starting from the `MAX_SAFE_INTEGER` sentinel, with the
"no valid ranges" fallback. -/
def getCombinedRange (edits : List BufferedEdit) : Range :=
  if edits.isEmpty then ⟨⟨0, 0⟩, ⟨0, 0⟩⟩
  else
    let acc := edits.foldl (fun a e => e.changes.foldl combineStep a)
      ⟨MAX_SAFE_INTEGER, MAX_SAFE_INTEGER, 0, 0⟩
    if acc.sl == MAX_SAFE_INTEGER then ⟨⟨0, 0⟩, ⟨0, 0⟩⟩
    else ⟨⟨acc.sl, acc.sc⟩, ⟨acc.el, acc.ec⟩⟩

/-- All changes of a list of buffered edits, in order. -/
def allChanges (edits : List BufferedEdit) : List ContentChange :=
  (edits.map (·.changes)).flatten

end EditBuffer

/-! ## LRUCache (`src/extension.ts`)

A JavaScript `Map` iterates in insertion order, so the cache is an
association list whose head is the oldest (least recently used) entry
and whose last element is the most recently used. -/

/-- Model of `LRUCache<K, V>`. -/
structure LRUCache (K V : Type) where
  entries : List (K × V)
  maxSize : Nat
deriving Repr

namespace LRUCache

variable {K V : Type} [DecidableEq K]

/-- The empty cache of a given capacity (`new LRUCache(maxSize)`). -/
def empty (K V : Type) (maxSize : Nat) : LRUCache K V := ⟨[], maxSize⟩

/-- Model of `Map.get`. -/
def lookupKey (k : K) (l : List (K × V)) : Option V :=
  (l.find? (fun p => p.1 == k)).map (·.2)

/-- Model of `Map.delete k` (keys of a `Map` are unique). -/
def removeKey (k : K) (l : List (K × V)) : List (K × V) :=
  l.filter (fun p => !(p.1 == k))

/-- Model of `LRUCache.get`: on a hit, delete and re-insert to move the entry to
the most-recently-used end. -/
def get (c : LRUCache K V) (k : K) : Option V × LRUCache K V :=
  match lookupKey k c.entries with
  | none => (none, c)
  | some v => (some v, { c with entries := removeKey k c.entries ++ [(k, v)] })

/-- Model of `LRUCache.set`: refresh an existing key in place; otherwise evict
the first (oldest) entry when at capacity, then append. -/
def set (c : LRUCache K V) (k : K) (v : V) : LRUCache K V :=
  if c.entries.any (fun p => p.1 == k) then
    { c with entries := removeKey k c.entries ++ [(k, v)] }
  else if c.entries.length ≥ c.maxSize then
    match c.entries with
    | [] => { c with entries := [(k, v)] }
    | _ :: rest => { c with entries := rest ++ [(k, v)] }
  else
    { c with entries := c.entries ++ [(k, v)] }

/-- Model of `LRUCache.has`. -/
def hasKey (c : LRUCache K V) (k : K) : Bool :=
  c.entries.any (fun p => p.1 == k)

/-- A `get` or `set` call, for stating properties of operation
sequences. -/
inductive Op (K V : Type)
  | get (k : K)
  | set (k : K) (v : V)

/-- Apply one operation (the value returned by `get` is discarded). -/
def applyOp (c : LRUCache K V) : Op K V → LRUCache K V
  | .get k => (get c k).2
  | .set k v => set c k v

/-- Run a sequence of operations. -/
def run (c : LRUCache K V) (ops : List (Op K V)) : LRUCache K V :=
  ops.foldl applyOp c

end LRUCache

/-! ## ScopeTracker (`src/extension.ts` / `scopeTracker`) -/

/-- Model of `vscode.SymbolKind`. -/
inductive SymbolKind
  | File | Module | Namespace | Package | Class | Method | Property | Field
  | Constructor | Enum | Interface | Function | Variable | Constant
  | Str | Number | Boolean | Array | Object | Key | Null | EnumMember
  | Struct | Event | Operator | TypeParameter
deriving DecidableEq, Repr

/-- A `vscode.DocumentSymbol`: name, kind, range, children. -/
inductive Sym
  | mk (name : String) (kind : SymbolKind) (range : Range) (children : List Sym)

/-- Symbol name. -/
def Sym.name : Sym → String
  | .mk n _ _ _ => n

/-- Symbol kind. -/
def Sym.kind : Sym → SymbolKind
  | .mk _ k _ _ => k

/-- Symbol range. -/
def Sym.range : Sym → Range
  | .mk _ _ r _ => r

/-- Symbol children. -/
def Sym.children : Sym → List Sym
  | .mk _ _ _ cs => cs

namespace ScopeTracker

/-- The kind list of `isRelevantSymbol`. -/
def relevantKinds : List SymbolKind :=
  [.Function, .Method, .Class, .Constructor, .Module, .Namespace, .Interface, .Struct]

/-- Model of `isRelevantSymbol`. -/
def isRelevantSymbol (s : Sym) : Bool :=
  relevantKinds.contains s.kind

/-- The kind list of `isClassLike`. -/
def classLikeKinds : List SymbolKind := [.Class, .Struct, .Interface]

/-- Model of `isClassLike`. -/
def isClassLike (s : Sym) : Bool :=
  classLikeKinds.contains s.kind

/-- Model of `findEnclosingSymbolForRange`: first containing symbol wins, with
children consulted before the symbol itself; a containing symbol of an
irrelevant kind falls through to its later siblings.  (Recursing into
an empty child list returns `none`, which is the source's
`children.length > 0` guard.) -/
def findEnclosingSymbolForRange : List Sym → Range → Option Sym
  | [], _ => none
  | .mk n k rg cs :: rest, r =>
    if rg.containsRange r then
      match findEnclosingSymbolForRange cs r with
      | some childMatch => some childMatch
      | none =>
        if isRelevantSymbol (.mk n k rg cs) then some (.mk n k rg cs)
        else findEnclosingSymbolForRange rest r
    else findEnclosingSymbolForRange rest r

/-- The descent exactly as §4.3 of the spec words it: for each node
whose range contains the query range, children first, then the node
itself if its kind is relevant, else nothing from this node; siblings
are tried in order. -/
def specResolveRange : List Sym → Range → Option Sym
  | [], _ => none
  | .mk n k rg cs :: rest, r =>
    (if rg.containsRange r then
      (specResolveRange cs r).orElse
        (fun _ => if relevantKinds.contains k then some (.mk n k rg cs) else none)
    else none).orElse (fun _ => specResolveRange rest r)

/-- Decidable check that no node of the forest both contains `r` and
has a relevant kind. -/
def noRelevantContaining (r : Range) : List Sym → Bool
  | [] => true
  | .mk _ k rg cs :: rest =>
    (!(rg.containsRange r) || !(relevantKinds.contains k))
      && noRelevantContaining r cs && noRelevantContaining r rest

/-- Model of `EditScope.kind` (`'class'` etc. are Lean keywords, hence the
capitalised constructors). -/
inductive ScopeKind
  | Function | Method | Class | Module | Unknown
deriving DecidableEq, Repr

/-- Model of `mapSymbolKind`. -/
def mapSymbolKind : SymbolKind → ScopeKind
  | .Function => .Function
  | .Method => .Method
  | .Constructor => .Method
  | .Class => .Class
  | .Struct => .Class
  | .Interface => .Class
  | .Module => .Module
  | .Namespace => .Module
  | _ => .Unknown

/-- Model of `EditScope`. -/
structure EditScope where
  name : String
  kind : ScopeKind
  className : Option String
  range : Range
  symbolKind : SymbolKind
deriving Repr

/-- Model of `findParentClassName`: walks the whole outline; a node that is
class-like and contains the method's range is returned *before* its
children are examined.  A nested result with an empty name is falsy in
the source (`if (nested)`) and therefore skipped. -/
def findParentClassName (method : Sym) : List Sym → Option String
  | [] => none
  | .mk n k rg cs :: rest =>
    if isClassLike (.mk n k rg cs) && rg.containsRange method.range then
      some n
    else
      match findParentClassName method cs with
      | some nested =>
        if nested == "" then findParentClassName method rest else some nested
      | none => findParentClassName method rest

/-- Model of `symbolToEditScope`. -/
def symbolToEditScope (symbol : Sym) (allSymbols : List Sym) : EditScope :=
  let kind := mapSymbolKind symbol.kind
  let className :=
    if kind == ScopeKind.Method then findParentClassName symbol allSymbols else none
  ⟨symbol.name, kind, className, symbol.range, symbol.kind⟩

/-- Pre-order flattening of an outline forest (each node before its
children, children before later siblings). -/
def preorder : List Sym → List Sym
  | [] => []
  | .mk n k rg cs :: rest => .mk n k rg cs :: (preorder cs ++ preorder rest)

/-- Every symbol name in the forest is non-empty. -/
def allNamesNonempty : List Sym → Bool
  | [] => true
  | .mk n _ _ cs :: rest =>
    !(n == "") && allNamesNonempty cs && allNamesNonempty rest

end ScopeTracker

/-! ## SmartDiagnostics orchestrator (dispatch stats and failure backoff)

`processEdits` / `sendToLSP` / `handleLspFailure`.  The remote request
is an external collaborator, so its outcome (acknowledged or transport
error) and the wall-clock time `Date.now()` enter as parameters; a
shown warning notification is reported as a `Bool` alongside the new
state. -/

namespace SmartDiagnostics

/-- Model of `SmartDiagnostics.FAILURE_THRESHOLD`. -/
def FAILURE_THRESHOLD : Nat := 3

/-- Model of `SmartDiagnostics.NOTIFICATION_COOLDOWN_MS`. -/
def NOTIFICATION_COOLDOWN_MS : Nat := 60000

/-- The `stats` record. -/
structure DiagStats where
  totalChanges : Nat
  filteredOut : Nat
  sentToLsp : Nat
deriving DecidableEq, Repr

/-- Orchestrator state touched by dispatch: the stats counters, the
failure streak, and the time of the last shown warning. -/
structure DiagState where
  stats : DiagStats
  consecutiveFailures : Nat
  lastNotificationTime : Nat
deriving DecidableEq, Repr

/-- Outcome of the remote `vokt/checkDrift` request. -/
inductive DispatchOutcome
  | success | failure
deriving DecidableEq, Repr

/-- Model of `handleLspFailure`: increment the streak; at the threshold, warn
iff the cooldown has strictly passed, and reset the streak either way.
The returned `Bool` is whether a warning notification was shown. -/
def handleLspFailure (now : Nat) (s : DiagState) : DiagState × Bool :=
  let s := { s with consecutiveFailures := s.consecutiveFailures + 1 }
  if s.consecutiveFailures ≥ FAILURE_THRESHOLD then
    if now - s.lastNotificationTime > NOTIFICATION_COOLDOWN_MS then
      ({ s with lastNotificationTime := now, consecutiveFailures := 0 }, true)
    else
      ({ s with consecutiveFailures := 0 }, false)
  else (s, false)

/-- Model of `sendToLSP`: a missing client is a silent no-op; success resets the
failure streak; a transport error goes to `handleLspFailure`. -/
def sendToLSP (clientPresent : Bool) (outcome : DispatchOutcome) (now : Nat)
    (s : DiagState) : DiagState × Bool :=
  if !clientPresent then (s, false)
  else
    match outcome with
    | .success => ({ s with consecutiveFailures := 0 }, false)
    | .failure => handleLspFailure now s

/-- Model of `processEdits`: skip entirely when the client is absent or not
running, or when there are no edits; otherwise count the dispatch
attempt in `sentToLsp` before scope resolution (which touches no
counters) and the dispatch itself. -/
def processEdits (clientPresent clientRunning : Bool)
    (edits : List BufferedEdit) (outcome : DispatchOutcome) (now : Nat)
    (s : DiagState) : DiagState × Bool :=
  if !clientPresent || !clientRunning then (s, false)
  else if edits.length == 0 then (s, false)
  else
    let s := { s with stats := { s.stats with sentToLsp := s.stats.sentToLsp + 1 } }
    sendToLSP clientPresent outcome now s

/-- Run a sequence of dispatches (`sendToLSP` with a present client),
counting the warnings shown. -/
def runDispatches (events : List (DispatchOutcome × Nat)) (s : DiagState) :
    DiagState × Nat :=
  events.foldl
    (fun acc ev =>
      let r := sendToLSP true ev.1 ev.2 acc.1
      (r.1, acc.2 + (if r.2 then 1 else 0)))
    (s, 0)

end SmartDiagnostics

/-! ## Concrete sample data (documents, changes, outlines, states) -/

/-- Lexicographic (line-then-character) order on positions, as a
proposition. -/
def posLePr (p q : Pos) : Prop :=
  p.line < q.line ∨ (p.line = q.line ∧ p.character ≤ q.character)

instance (p q : Pos) : Decidable (posLePr p q) := by
  unfold posLePr; infer_instance

/-- The running start position of a `getCombinedRange` accumulator. -/
def EditBuffer.accStart (a : EditBuffer.FoldAcc) : Pos := ⟨a.sl, a.sc⟩

/-- The running end position of a `getCombinedRange` accumulator. -/
def EditBuffer.accEnd (a : EditBuffer.FoldAcc) : Pos := ⟨a.el, a.ec⟩

/-- A one-line typescript document whose line is `"a b  "`. -/
def tsDocAB : TextDocument := ⟨"typescript", ["a b  "], 1, "file:///a.ts"⟩

/-- Replaces the two trailing blanks of `tsDocAB` by one blank: a
whitespace-only change. -/
def wsChange : ContentChange := ⟨⟨⟨0, 3⟩, ⟨0, 5⟩⟩, 2, " "⟩

/-- Replaces `"a b"` by `"ab"`: identical once whitespace is stripped,
a formatting-only change. -/
def fmtChange : ContentChange := ⟨⟨⟨0, 0⟩, ⟨0, 3⟩⟩, 3, "ab"⟩

/-- A one-line typescript document containing a line comment. -/
def tsDocComment : TextDocument := ⟨"typescript", ["// hi"], 1, "file:///c.ts"⟩

/-- Rewrites the word inside the comment of `tsDocComment`. -/
def commentChange : ContentChange := ⟨⟨⟨0, 3⟩, ⟨0, 5⟩⟩, 2, "yo"⟩

/-- A one-line typescript document. -/
def tsDocConst : TextDocument := ⟨"typescript", ["const x = 1;"], 1, "file:///k.ts"⟩

/-- A malformed change whose start line (5) lies outside `tsDocConst`
(which only has line 0). -/
def outOfRangeChange : ContentChange := ⟨⟨⟨5, 0⟩, ⟨5, 1⟩⟩, 1, "y"⟩

/-- A method symbol nested two classes deep. -/
def methodSym : Sym := .mk "m" .Method ⟨⟨2, 0⟩, ⟨4, 1⟩⟩ []

/-- The innermost class containing `methodSym`. -/
def innerClassSym : Sym := .mk "Inner" .Class ⟨⟨1, 0⟩, ⟨8, 1⟩⟩ [methodSym]

/-- The outermost class, containing `innerClassSym`. -/
def outerClassSym : Sym := .mk "Outer" .Class ⟨⟨0, 0⟩, ⟨10, 1⟩⟩ [innerClassSym]

/-- A containing node of non-relevant kind (a variable). -/
def varSym : Sym := .mk "v" .Variable ⟨⟨0, 0⟩, ⟨9, 9⟩⟩ []

/-- A query range inside `methodSym`. -/
def demoQueryRange : Range := ⟨⟨2, 1⟩, ⟨3, 0⟩⟩

/-- Document for the buffered-edit samples. -/
def bufDoc : TextDocument := ⟨"typescript", ["x"], 7, "file:///b.ts"⟩

/-- One buffered edit. -/
def bufEdit0 : BufferedEdit := ⟨[⟨⟨⟨0, 0⟩, ⟨0, 1⟩⟩, 1, "y"⟩], 5, 6⟩

/-- A buffer state holding one non-empty entry for `bufDoc` with a
pending timer. -/
def bufState0 : BufState := ⟨[("file:///b.ts", ⟨bufDoc, [bufEdit0]⟩)], ["file:///b.ts"]⟩

/-- Two buffered edits whose changes sit on lines 1 and 3. -/
def lineEdits13 : List BufferedEdit :=
  [⟨[⟨⟨⟨1, 2⟩, ⟨1, 5⟩⟩, 3, ""⟩], 0, 1⟩, ⟨[⟨⟨⟨3, 0⟩, ⟨3, 4⟩⟩, 4, ""⟩], 0, 2⟩]

/-- One buffered edit whose change starts at line
`Number.MAX_SAFE_INTEGER`, the sentinel of `getCombinedRange`. -/
def sentinelEdits : List BufferedEdit :=
  [⟨[⟨⟨⟨EditBuffer.MAX_SAFE_INTEGER, 0⟩, ⟨EditBuffer.MAX_SAFE_INTEGER, 1⟩⟩, 1, "x"⟩], 0, 1⟩]

/-! ## Theorems -/

/-- C5: `classify` does *not* return normally on every malformed
range.  On a typescript document with one line, a change whose start
line is 5 reaches `isInComment`, whose uncaught `lineAt` call throws
"Illegal value for line" — the classification neither completes nor
over-classifies as code. -/
theorem classify_throws_on_out_of_range_line :
    ChangeFilter.classify defaultFilterConfig tsDocConst [outOfRangeChange]
      = .error "Illegal value for line" := by
  rfl

/-- C2 counterexample: at the cooldown boundary — exactly 60000 ms
since the last shown warning — the third consecutive failure shows no
warning, because the code tests `now - last > 60000` strictly, not
"at least 60 seconds". -/
theorem dispatch_cooldown_boundary_cex :
    (SmartDiagnostics.sendToLSP true .failure 160000 ⟨⟨0, 0, 0⟩, 2, 100000⟩).2 = false
    ∧ 160000 - 100000 ≥ 60000
    ∧ (SmartDiagnostics.sendToLSP true .failure 160000
        ⟨⟨0, 0, 0⟩, 2, 100000⟩).1.consecutiveFailures = 0 := by
  refine ⟨by rfl, by norm_num, by rfl⟩

/-- C2 (amended): success resets the streak; a failure below the
threshold increments it without warning; a failure reaching the
threshold resets it to 0 and warns iff *strictly more than* 60 s have
elapsed since the last shown warning; and a run of four failures whose
third breaches an elapsed cooldown shows exactly one warning. -/
theorem dispatch_failure_backoff (s : SmartDiagnostics.DiagState) (now : Nat) :
    (SmartDiagnostics.sendToLSP true .success now s).1.consecutiveFailures = 0
    ∧ (s.consecutiveFailures + 1 < 3 →
        SmartDiagnostics.sendToLSP true .failure now s
          = ({ s with consecutiveFailures := s.consecutiveFailures + 1 }, false))
    ∧ (s.consecutiveFailures + 1 ≥ 3 →
        (SmartDiagnostics.sendToLSP true .failure now s).1.consecutiveFailures = 0
        ∧ ((SmartDiagnostics.sendToLSP true .failure now s).2 = true
            ↔ now - s.lastNotificationTime > 60000))
    ∧ (∀ t1 t2 t3 t4 : Nat,
        s.consecutiveFailures = 0 →
        t3 - s.lastNotificationTime > 60000 →
        (SmartDiagnostics.runDispatches
          [(.failure, t1), (.failure, t2), (.failure, t3), (.failure, t4)] s).2 = 1) := by
  refine ⟨rfl, ?_, ?_, ?_⟩
  · intro h
    simp only [SmartDiagnostics.sendToLSP, SmartDiagnostics.handleLspFailure,
      SmartDiagnostics.FAILURE_THRESHOLD, Bool.not_true, Bool.false_eq_true,
      if_false]
    rw [if_neg (by omega)]
  · intro h
    simp only [SmartDiagnostics.sendToLSP, SmartDiagnostics.handleLspFailure,
      SmartDiagnostics.FAILURE_THRESHOLD, SmartDiagnostics.NOTIFICATION_COOLDOWN_MS,
      Bool.not_true, Bool.false_eq_true, if_false]
    rw [if_pos (by omega)]
    by_cases hc : now - s.lastNotificationTime > 60000
    · rw [if_pos hc]; exact ⟨rfl, by simpa using hc⟩
    · rw [if_neg hc]; exact ⟨rfl, by simpa using hc⟩
  · intro t1 t2 t3 t4 h0 hcool
    rcases s with ⟨st, cf, lt⟩
    simp only at h0
    subst h0
    simp only at hcool
    simp only [SmartDiagnostics.runDispatches, List.foldl,
      SmartDiagnostics.sendToLSP, SmartDiagnostics.handleLspFailure,
      SmartDiagnostics.FAILURE_THRESHOLD, SmartDiagnostics.NOTIFICATION_COOLDOWN_MS]
    norm_num [hcool]

/-- C2 witness: the backoff characterisation applied at a concrete
state and times. -/
theorem dispatch_failure_backoff_witness :
    SmartDiagnostics.sendToLSP true .failure 70000 ⟨⟨0, 0, 0⟩, 1, 0⟩
      = (⟨⟨0, 0, 0⟩, 2, 0⟩, false)
    ∧ (SmartDiagnostics.runDispatches
        [(.failure, 1), (.failure, 2), (.failure, 70000), (.failure, 70001)]
        ⟨⟨0, 0, 0⟩, 0, 0⟩).2 = 1 :=
  ⟨(dispatch_failure_backoff ⟨⟨0, 0, 0⟩, 1, 0⟩ 70000).2.1 (by norm_num),
   (dispatch_failure_backoff ⟨⟨0, 0, 0⟩, 0, 0⟩ 0).2.2.2 1 2 70000 70001 rfl (by norm_num)⟩

/-- C10: `processEdits` with an absent/non-running client or no edits
leaves every stats counter unchanged; otherwise it increments
`sentToLsp` by exactly one — for success and failure outcomes alike —
and touches no other counter. -/
theorem processEdits_stats_counting (cp cr : Bool)
    (edits : List BufferedEdit) (outcome : SmartDiagnostics.DispatchOutcome)
    (now : Nat) (s : SmartDiagnostics.DiagState) :
    ((cp = false ∨ cr = false ∨ edits = []) →
      (SmartDiagnostics.processEdits cp cr edits outcome now s).1.stats = s.stats)
    ∧ (cp = true → cr = true → edits ≠ [] →
        (SmartDiagnostics.processEdits cp cr edits outcome now s).1.stats.sentToLsp
          = s.stats.sentToLsp + 1
        ∧ (SmartDiagnostics.processEdits cp cr edits outcome now s).1.stats.totalChanges
          = s.stats.totalChanges
        ∧ (SmartDiagnostics.processEdits cp cr edits outcome now s).1.stats.filteredOut
          = s.stats.filteredOut) := by
  constructor
  · rintro (rfl | rfl | rfl)
    · rfl
    · cases cp <;> rfl
    · cases cp <;> cases cr <;> rfl
  · rintro rfl rfl hne
    have hlen : (edits.length == 0) = false := by
      cases edits with
      | nil => exact absurd rfl hne
      | cons a l => rfl
    simp only [SmartDiagnostics.processEdits, Bool.not_true, Bool.or_self,
      Bool.false_eq_true, if_false, hlen, SmartDiagnostics.sendToLSP,
      SmartDiagnostics.handleLspFailure, SmartDiagnostics.FAILURE_THRESHOLD,
      SmartDiagnostics.NOTIFICATION_COOLDOWN_MS]
    cases outcome with
    | success => exact ⟨rfl, rfl, rfl⟩
    | failure =>
      dsimp only
      split <;> first
        | (split <;> exact ⟨rfl, rfl, rfl⟩)
        | exact ⟨rfl, rfl, rfl⟩

/-- C10 witness: one edit, running client, failing dispatch — the
attempt is still counted. -/
theorem processEdits_stats_counting_witness :
    (SmartDiagnostics.processEdits true true [bufEdit0] .failure 5
      ⟨⟨0, 0, 0⟩, 0, 0⟩).1.stats.sentToLsp = 0 + 1
    ∧ (SmartDiagnostics.processEdits false true [bufEdit0] .failure 5
        ⟨⟨0, 0, 0⟩, 0, 0⟩).1.stats = ⟨0, 0, 0⟩ :=
  ⟨((processEdits_stats_counting true true [bufEdit0] .failure 5
      ⟨⟨0, 0, 0⟩, 0, 0⟩).2 rfl rfl (by simp)).1,
   (processEdits_stats_counting false true [bufEdit0] .failure 5
      ⟨⟨0, 0, 0⟩, 0, 0⟩).1 (Or.inl rfl)⟩

/-- Model of `Map.delete` really removes the key. -/
theorem EditBuffer.find?_deleteEntry_self (uri : String) (m : List (String × BufEntry)) :
    (EditBuffer.deleteEntry uri m).find? (fun p => p.1 == uri) = none := by
  rw [List.find?_eq_none]
  intro x hx
  have hmem := List.of_mem_filter hx
  simpa using hmem

/-- Lookup after `Map.delete` misses. -/
theorem EditBuffer.lookup_deleteEntry_self (uri : String) (m : List (String × BufEntry)) :
    EditBuffer.lookupEntry uri (EditBuffer.deleteEntry uri m) = none := by
  unfold EditBuffer.lookupEntry
  rw [EditBuffer.find?_deleteEntry_self]
  rfl

/-- In-place update of an existing key is found by a later lookup. -/
theorem EditBuffer.find?_map_update (uri : String) (e : BufEntry)
    (m : List (String × BufEntry)) :
    (m.map (fun p => if p.1 == uri then (uri, e) else p)).find? (fun p => p.1 == uri)
      = if m.any (fun p => p.1 == uri) then some (uri, e) else none := by
  induction m with
  | nil => rfl
  | cons p rest ih =>
    simp only [List.map_cons, List.any_cons]
    by_cases h : p.1 == uri
    · rw [if_pos h, List.find?_cons_of_pos]
      · simp [h]
      · simp
    · rw [if_neg h, List.find?_cons_of_neg, ih]
      · have h' : (p.1 == uri) = false := by simpa using h
        simp only [h', Bool.false_or]
      · simpa using h

/-- Lookup after `Map.set` finds the stored entry. -/
theorem EditBuffer.lookup_setEntry_self (uri : String) (e : BufEntry)
    (m : List (String × BufEntry)) :
    EditBuffer.lookupEntry uri (EditBuffer.setEntry uri e m) = some e := by
  unfold EditBuffer.lookupEntry EditBuffer.setEntry
  by_cases hany : m.any (fun p => p.1 == uri)
  · rw [if_pos hany, EditBuffer.find?_map_update, if_pos hany]
    rfl
  · rw [if_neg hany, List.find?_append]
    have hnil : m.find? (fun p => p.1 == uri) = none := by
      rw [List.find?_eq_none]
      intro x hx hpx
      exact hany (List.any_eq_true.mpr ⟨x, hx, hpx⟩)
    rw [hnil]
    simp

/-- C6: when the idle timer fires on a non-empty entry, the entry is
removed from the map before the callback runs — an `addEdit` from
inside the callback therefore creates a fresh single-edit entry — and
a throwing callback is swallowed, leaving the URI unbuffered rather
than stuck. -/
theorem onTimerFired_clears_entry_first (s : BufState) (uri : String) (entry : BufEntry)
    (hlook : EditBuffer.lookupEntry uri s.buffer = some entry)
    (hne : entry.edits ≠ []) :
    (∀ (changes : List ContentChange) (now : Nat),
       entry.document.uriStr = uri →
       EditBuffer.lookupEntry uri
         ((EditBuffer.onTimerFired
           (some fun _ d _ st => .ok (EditBuffer.addEdit d changes now st)) uri s).buffer)
         = some ⟨entry.document, [⟨changes, now, entry.document.version⟩]⟩)
    ∧ (∀ msg : String,
        EditBuffer.onTimerFired (some fun _ _ _ _ => .error msg) uri s
          = { s with buffer := EditBuffer.deleteEntry uri s.buffer }
        ∧ EditBuffer.hasBufferedEdits uri
            (EditBuffer.onTimerFired (some fun _ _ _ _ => .error msg) uri s) = false) := by
  have hempty : entry.edits.isEmpty = false := by
    cases h : entry.edits with
    | nil => exact absurd h hne
    | cons a l => rfl
  constructor
  · intro changes now huri
    simp only [EditBuffer.onTimerFired, hlook, hempty, Bool.false_eq_true, if_false,
      EditBuffer.addEdit, huri, EditBuffer.lookup_deleteEntry_self]
    rw [EditBuffer.lookup_setEntry_self]
    simp
  · intro msg
    refine ⟨?_, ?_⟩
    · simp only [EditBuffer.onTimerFired, hlook, hempty, Bool.false_eq_true, if_false]
    · simp only [EditBuffer.onTimerFired, hlook, hempty, Bool.false_eq_true, if_false,
        EditBuffer.hasBufferedEdits, EditBuffer.lookup_deleteEntry_self]

/-- C6 witness: the fresh-entry and swallowed-exception behaviour on a
concrete one-entry buffer. -/
theorem onTimerFired_clears_entry_first_witness :
    EditBuffer.lookupEntry "file:///b.ts"
      ((EditBuffer.onTimerFired
        (some fun _ d _ st => .ok (EditBuffer.addEdit d [] 9 st))
        "file:///b.ts" bufState0).buffer)
      = some ⟨bufDoc, [⟨[], 9, 7⟩]⟩
    ∧ EditBuffer.hasBufferedEdits "file:///b.ts"
        (EditBuffer.onTimerFired (some fun _ _ _ _ => .error "boom")
          "file:///b.ts" bufState0) = false :=
  ⟨(onTimerFired_clears_entry_first bufState0 "file:///b.ts" ⟨bufDoc, [bufEdit0]⟩
      rfl (by simp)).1 [] 9 rfl,
   ((onTimerFired_clears_entry_first bufState0 "file:///b.ts" ⟨bufDoc, [bufEdit0]⟩
      rfl (by simp)).2 "boom").2⟩

/-- Model of `Map.delete` removes the key from the cache list. -/
theorem LRUCache.find?_removeKey_self {K V : Type} [DecidableEq K] (k : K)
    (l : List (K × V)) :
    (LRUCache.removeKey k l).find? (fun p => p.1 == k) = none := by
  rw [List.find?_eq_none]
  intro x hx
  have hmem := List.of_mem_filter hx
  simpa using hmem

/-- Deleting key `k` leaves lookups of other keys unchanged. -/
theorem LRUCache.lookup_removeKey_ne {K V : Type} [DecidableEq K] (k k' : K)
    (hne : k' ≠ k) (l : List (K × V)) :
    LRUCache.lookupKey k' (LRUCache.removeKey k l) = LRUCache.lookupKey k' l := by
  induction l with
  | nil => rfl
  | cons p rest ih =>
    unfold LRUCache.lookupKey LRUCache.removeKey at *
    by_cases h : p.1 == k
    · have h1 : p.1 = k := by simpa using h
      have h2 : (p.1 == k') = false := by
        simp only [h1, beq_eq_false_iff_ne]
        exact Ne.symm hne
      rw [List.filter_cons_of_neg (by simpa using h)]
      simp only [List.find?_cons, h2]
      exact ih
    · rw [List.filter_cons_of_pos (by simpa using h)]
      simp only [List.find?_cons]
      cases h' : (p.1 == k') with
      | true => rfl
      | false => exact ih

/-- A key that occurs in the list makes `removeKey` strictly shorter. -/
theorem LRUCache.length_removeKey_lt_of_any {K V : Type} [DecidableEq K] (k : K)
    (l : List (K × V)) (h : l.any (fun p => p.1 == k) = true) :
    (LRUCache.removeKey k l).length < l.length := by
  induction l with
  | nil => simp at h
  | cons p rest ih =>
    unfold LRUCache.removeKey at *
    by_cases hp : p.1 == k
    · rw [List.filter_cons_of_neg (by simpa using hp)]
      have := List.length_filter_le (fun p => !(p.1 == k)) rest
      simpa using Nat.lt_succ_of_le this
    · rw [List.filter_cons_of_pos (by simpa using hp)]
      have hrest : rest.any (fun p => p.1 == k) = true := by
        rcases List.any_eq_true.mp h with ⟨x, hx, hpx⟩
        cases hx with
        | head => exact absurd hpx hp
        | tail _ hx => exact List.any_eq_true.mpr ⟨x, hx, hpx⟩
      simpa using Nat.succ_lt_succ (ih hrest)

/-- With unique keys, `removeKey` of a present key removes exactly one
entry. -/
theorem LRUCache.length_removeKey_of_nodup {K V : Type} [DecidableEq K] (k : K)
    (l : List (K × V)) (hnd : (l.map Prod.fst).Nodup)
    (h : l.any (fun p => p.1 == k) = true) :
    (LRUCache.removeKey k l).length + 1 = l.length := by
  induction l with
  | nil => simp at h
  | cons p rest ih =>
    unfold LRUCache.removeKey at *
    rw [List.map_cons, List.nodup_cons] at hnd
    by_cases hp : p.1 == k
    · rw [List.filter_cons_of_neg (by simpa using hp)]
      have hself : rest.filter (fun p => !(p.1 == k)) = rest := by
        rw [List.filter_eq_self]
        intro x hx
        have : x.1 ≠ k := by
          intro hxk
          exact hnd.1 (by
            rw [← hxk, eq_comm] at hp
            have : p.1 = x.1 := by simpa using (by simpa [hxk] using hp : p.1 = x.1)
            exact this ▸ List.mem_map_of_mem Prod.fst hx)
        simpa using this
      rw [hself]
      simp
    · rw [List.filter_cons_of_pos (by simpa using hp)]
      have hrest : rest.any (fun p => p.1 == k) = true := by
        rcases List.any_eq_true.mp h with ⟨x, hx, hpx⟩
        cases hx with
        | head => exact absurd hpx hp
        | tail _ hx => exact List.any_eq_true.mpr ⟨x, hx, hpx⟩
      simpa using congrArg Nat.succ (ih hnd.2 hrest)

/-- C9: `set` on a key already present replaces its value, moves the
entry to the most-recently-used end, evicts nothing, and leaves the
size and every other key's value unchanged. -/
theorem lru_set_existing_key {K V : Type} [DecidableEq K]
    (c : LRUCache K V) (k : K) (v : V)
    (hnd : (c.entries.map Prod.fst).Nodup)
    (hmem : c.hasKey k = true) :
    (c.set k v).entries.length = c.entries.length
    ∧ LRUCache.lookupKey k (c.set k v).entries = some v
    ∧ (c.set k v).entries.getLast? = some (k, v)
    ∧ (∀ k', k' ≠ k →
        LRUCache.lookupKey k' (c.set k v).entries = LRUCache.lookupKey k' c.entries)
    ∧ (c.set k v).maxSize = c.maxSize := by
  have hmem' : (c.entries.any fun p => p.1 == k) = true := hmem
  have hset : (c.set k v).entries = LRUCache.removeKey k c.entries ++ [(k, v)] := by
    unfold LRUCache.set
    rw [if_pos hmem']
  have hmax : (c.set k v).maxSize = c.maxSize := by
    unfold LRUCache.set
    rw [if_pos hmem']
  refine ⟨?_, ?_, ?_, ?_, hmax⟩
  · rw [hset, List.length_append]
    simpa using LRUCache.length_removeKey_of_nodup k c.entries hnd hmem
  · rw [hset]
    unfold LRUCache.lookupKey
    rw [List.find?_append, LRUCache.find?_removeKey_self]
    simp
  · rw [hset]
    exact List.getLast?_concat _
  · intro k' hk'
    rw [hset]
    unfold LRUCache.lookupKey
    rw [List.find?_append]
    have hone : List.find? (fun p => p.1 == k') [(k, v)] = none := by
      apply List.find?_eq_none.mpr
      intro x hx hpx
      rw [List.mem_singleton] at hx
      subst hx
      have hkk : k = k' := by simpa using hpx
      exact hk' hkk.symm
    rw [hone]
    simpa using LRUCache.lookup_removeKey_ne k k' hk' c.entries

/-- C9 witness: updating key "a" in a two-entry cache. -/
theorem lru_set_existing_key_witness :
    ((⟨[("a", 1), ("b", 2)], 3⟩ : LRUCache String Nat).set "a" 10).entries.length = 2
    ∧ LRUCache.lookupKey "a"
        ((⟨[("a", 1), ("b", 2)], 3⟩ : LRUCache String Nat).set "a" 10).entries = some 10
    ∧ ((⟨[("a", 1), ("b", 2)], 3⟩ : LRUCache String Nat).set "a" 10).entries.getLast?
        = some ("a", 10)
    ∧ LRUCache.lookupKey "b"
        ((⟨[("a", 1), ("b", 2)], 3⟩ : LRUCache String Nat).set "a" 10).entries
        = LRUCache.lookupKey "b" [("a", 1), ("b", 2)] := by
  obtain ⟨h1, h2, h3, h4, h5⟩ :=
    lru_set_existing_key (⟨[("a", 1), ("b", 2)], 3⟩ : LRUCache String Nat)
      "a" 10 (by decide) (by decide)
  exact ⟨h1, h2, h3, h4 "b" (by decide)⟩

/-- C4 counterexample: with configured capacity 0, a `set` on the empty
cache inserts anyway (there is no first key to delete), so the size (1)
exceeds the capacity (0). -/
theorem lru_zero_capacity_cex :
    ((LRUCache.empty String Nat 0).set "a" 1).entries.length = 1
    ∧ ((LRUCache.empty String Nat 0).set "a" 1).maxSize = 0
    ∧ ¬(((LRUCache.empty String Nat 0).set "a" 1).entries.length
        ≤ ((LRUCache.empty String Nat 0).set "a" 1).maxSize) := by
  refine ⟨rfl, rfl, by decide⟩

/-- Model of `get` and `set` never change the configured capacity. -/
theorem LRUCache.maxSize_applyOp {K V : Type} [DecidableEq K]
    (c : LRUCache K V) (op : LRUCache.Op K V) :
    (c.applyOp op).maxSize = c.maxSize := by
  cases op with
  | get k =>
    cases h : LRUCache.lookupKey k c.entries <;>
      simp [LRUCache.applyOp, LRUCache.get, h]
  | set k v =>
    simp only [LRUCache.applyOp, LRUCache.set]
    split
    · rfl
    · split
      · split <;> rfl
      · rfl

/-- A present key makes lookups succeed, hence `any` holds. -/
theorem LRUCache.any_of_lookup {K V : Type} [DecidableEq K] (k : K)
    (l : List (K × V)) (v : V) (h : LRUCache.lookupKey k l = some v) :
    l.any (fun p => p.1 == k) = true := by
  unfold LRUCache.lookupKey at h
  cases hf : l.find? (fun p => p.1 == k) with
  | none => rw [hf] at h; simp at h
  | some x =>
    have hx := List.mem_of_find?_eq_some hf
    have hpx := List.find?_some hf
    exact List.any_eq_true.mpr ⟨x, hx, hpx⟩

/-- One `get` or `set` on a cache within capacity `≥ 1` stays within
capacity. -/
theorem LRUCache.size_applyOp_le {K V : Type} [DecidableEq K]
    (c : LRUCache K V) (op : LRUCache.Op K V)
    (hN : 1 ≤ c.maxSize) (hle : c.entries.length ≤ c.maxSize) :
    (c.applyOp op).entries.length ≤ c.maxSize := by
  cases op with
  | get k =>
    cases h : LRUCache.lookupKey k c.entries with
    | none => simpa [LRUCache.applyOp, LRUCache.get, h] using hle
    | some v =>
      simp only [LRUCache.applyOp, LRUCache.get, h, List.length_append,
        List.length_singleton]
      have := LRUCache.length_removeKey_lt_of_any k c.entries
        (LRUCache.any_of_lookup k c.entries v h)
      omega
  | set k v =>
    by_cases h1 : c.entries.any (fun p => p.1 == k)
    · simp only [LRUCache.applyOp, LRUCache.set, h1, if_true, List.length_append,
        List.length_singleton]
      have := LRUCache.length_removeKey_lt_of_any k c.entries h1
      omega
    · simp only [LRUCache.applyOp, LRUCache.set, h1, Bool.false_eq_true, if_false]
      by_cases h2 : c.entries.length ≥ c.maxSize
      · rw [if_pos h2]
        cases hc : c.entries with
        | nil => simpa using hN
        | cons hd rest =>
          rw [hc] at hle
          simp only [List.length_append, List.length_singleton]
          simp only [List.length_cons] at hle
          omega
      · rw [if_neg h2]
        simp only [List.length_append, List.length_singleton]
        omega

/-- Running any operation sequence preserves the capacity bound. -/
theorem LRUCache.size_run_le {K V : Type} [DecidableEq K]
    (ops : List (LRUCache.Op K V)) (c : LRUCache K V)
    (hN : 1 ≤ c.maxSize) (hle : c.entries.length ≤ c.maxSize) :
    (c.run ops).entries.length ≤ c.maxSize := by
  induction ops generalizing c with
  | nil => exact hle
  | cons op ops ih =>
    have hmax := LRUCache.maxSize_applyOp c op
    have step := LRUCache.size_applyOp_le c op hN hle
    have := ih (c.applyOp op) (by rw [hmax]; exact hN) (by rw [hmax]; exact step)
    rw [hmax] at this
    exact this

/-- C4 (amended): for every capacity `N ≥ 1` the cache built from any
`get`/`set` sequence never exceeds `N`; a `set` of an absent key on a
full cache evicts exactly the first (least recently touched) entry;
`a,b,c,d` on capacity 3 evicts `a`; and `a,b,c`, `get a`, `d` evicts
`b` but keeps `a` (both `get` and `set` refresh recency).  With
capacity `N = 0` the bound fails (see the counterexample). -/
theorem lru_capacity_and_eviction :
    (∀ (N : Nat) (ops : List (LRUCache.Op String Nat)), 1 ≤ N →
      ((LRUCache.empty String Nat N).run ops).entries.length ≤ N)
    ∧ (∀ (c : LRUCache String Nat) (k : String) (v : Nat),
        c.entries.length = c.maxSize → 1 ≤ c.maxSize → c.hasKey k = false →
        (c.set k v).entries = c.entries.tail ++ [(k, v)])
    ∧ (((((LRUCache.empty String Nat 3).set "a" 1).set "b" 2).set "c" 3).set "d" 4).hasKey "a"
        = false
    ∧ (((((LRUCache.empty String Nat 3).set "a" 1).set "b" 2).set "c" 3).set "d" 4).hasKey "b"
        = true
    ∧ (((((LRUCache.empty String Nat 3).set "a" 1).set "b" 2).set "c" 3).set "d" 4).entries.length
        = 3
    ∧ ((((((LRUCache.empty String Nat 3).set "a" 1).set "b" 2).set "c" 3).get "a").2.set "d" 4).hasKey "b"
        = false
    ∧ ((((((LRUCache.empty String Nat 3).set "a" 1).set "b" 2).set "c" 3).get "a").2.set "d" 4).hasKey "a"
        = true := by
  refine ⟨?_, ?_, by decide, by decide, by decide, by decide, by decide⟩
  · intro N ops hN
    exact LRUCache.size_run_le ops (LRUCache.empty String Nat N) hN (by simp [LRUCache.empty])
  · intro c k v hsize hN hkey
    have hkey' : (c.entries.any fun p => p.1 == k) = false := hkey
    unfold LRUCache.set
    rw [hkey']
    simp only [Bool.false_eq_true, if_false]
    rw [if_pos (by omega)]
    cases hc : c.entries with
    | nil =>
      rw [hc] at hsize
      simp at hsize
      omega
    | cons hd rest => rfl

/-- C4 witness: the capacity bound and the eviction shape at concrete
inputs. -/
theorem lru_capacity_and_eviction_witness :
    ((LRUCache.empty String Nat 2).run
      [.set "a" 1, .set "b" 2, .set "c" 3]).entries.length ≤ 2
    ∧ ((⟨[("a", 1), ("b", 2), ("c", 3)], 3⟩ : LRUCache String Nat).set "d" 4).entries
        = [("a", 1), ("b", 2), ("c", 3)].tail ++ [("d", 4)] := by
  obtain ⟨h1, h2, _⟩ := lru_capacity_and_eviction
  exact ⟨h1 2 [.set "a" 1, .set "b" 2, .set "c" 3] (by norm_num),
    h2 (⟨[("a", 1), ("b", 2), ("c", 3)], 3⟩ : LRUCache String Nat) "d" 4 rfl
      (by norm_num) (by decide)⟩

/-- The source descent agrees with the spec-worded descent. -/
theorem ScopeTracker.find_eq_spec : ∀ (l : List Sym) (r : Range),
    ScopeTracker.findEnclosingSymbolForRange l r = ScopeTracker.specResolveRange l r
  | [], r => by
    simp [ScopeTracker.findEnclosingSymbolForRange, ScopeTracker.specResolveRange]
  | .mk n k rg cs :: rest, r => by
    have ih1 := ScopeTracker.find_eq_spec cs r
    have ih2 := ScopeTracker.find_eq_spec rest r
    simp only [ScopeTracker.findEnclosingSymbolForRange, ScopeTracker.specResolveRange,
      ScopeTracker.isRelevantSymbol, Sym.kind]
    by_cases h : rg.containsRange r
    · rw [if_pos h, if_pos h, ih1]
      cases hcs : ScopeTracker.specResolveRange cs r with
      | some c => simp [Option.orElse]
      | none =>
        by_cases hrel : k ∈ ScopeTracker.relevantKinds
        · simp [hrel, Option.orElse]
        · simp [hrel, Option.orElse, ih2]
    · rw [if_neg h, if_neg h]
      simpa [Option.orElse] using ih2

/-- When no node of the forest both contains the query range and has a
relevant kind, the descent yields nothing. -/
theorem ScopeTracker.find_none_of_noRelevant : ∀ (l : List Sym) (r : Range),
    ScopeTracker.noRelevantContaining r l = true →
    ScopeTracker.findEnclosingSymbolForRange l r = none
  | [], r, _ => by simp [ScopeTracker.findEnclosingSymbolForRange]
  | .mk n k rg cs :: rest, r, h => by
    simp only [ScopeTracker.noRelevantContaining, Bool.and_eq_true] at h
    obtain ⟨⟨hhead, hcs⟩, hrest⟩ := h
    have ih1 := ScopeTracker.find_none_of_noRelevant cs r hcs
    have ih2 := ScopeTracker.find_none_of_noRelevant rest r hrest
    simp only [ScopeTracker.findEnclosingSymbolForRange]
    by_cases hcont : rg.containsRange r
    · rw [if_pos hcont, ih1]
      have hrel : ScopeTracker.isRelevantSymbol (.mk n k rg cs) = false := by
        simp only [hcont, Bool.not_true, Bool.false_or] at hhead
        simpa [ScopeTracker.isRelevantSymbol, Sym.kind] using hhead
      rw [hrel]
      simp only [Bool.false_eq_true, if_false]
      exact ih2
    · rw [if_neg hcont]
      exact ih2

/-- C7: scope resolution is exactly the recursive descent the spec
describes — children before the node, relevant kinds only, sibling
fall-through — and a query contained only in non-relevant nodes gets
`none`, never a less-specific enclosing match. -/
theorem scope_resolution_matches_spec (symbols : List Sym) (r : Range) :
    ScopeTracker.findEnclosingSymbolForRange symbols r
      = ScopeTracker.specResolveRange symbols r
    ∧ (ScopeTracker.noRelevantContaining r symbols = true →
        ScopeTracker.findEnclosingSymbolForRange symbols r = none) :=
  ⟨ScopeTracker.find_eq_spec symbols r,
   fun h => ScopeTracker.find_none_of_noRelevant symbols r h⟩

/-- C7 witness: the descent on a class/method outline, and `none` for
an outline whose only containing node is a variable. -/
theorem scope_resolution_matches_spec_witness :
    ScopeTracker.findEnclosingSymbolForRange [outerClassSym] demoQueryRange
      = ScopeTracker.specResolveRange [outerClassSym] demoQueryRange
    ∧ ScopeTracker.findEnclosingSymbolForRange [varSym] demoQueryRange = none :=
  ⟨(scope_resolution_matches_spec [outerClassSym] demoQueryRange).1,
   (scope_resolution_matches_spec [varSym] demoQueryRange).2
     (by simp [ScopeTracker.noRelevantContaining, ScopeTracker.relevantKinds,
       varSym, demoQueryRange, Range.containsRange, Range.containsPos,
       Pos.isBefore, Sym.kind])⟩

/-- C3 counterexample: for a method nested in class `Inner`, itself
nested in class `Outer`, the code reports `className = "Outer"` — the
*outermost* containing class — although `Inner` is a strictly nearer
class-like container, because `findParentClassName` tests each node
before descending into its children. -/
theorem method_class_name_nested_cex :
    (ScopeTracker.symbolToEditScope methodSym [outerClassSym]).className = some "Outer"
    ∧ ScopeTracker.isClassLike innerClassSym = true
    ∧ innerClassSym.range.containsRange methodSym.range = true
    ∧ outerClassSym.range.containsRange innerClassSym.range = true
    ∧ innerClassSym.range ≠ outerClassSym.range
    ∧ innerClassSym.name ≠ outerClassSym.name := by
  refine ⟨?_, by decide, by decide, by decide, by decide, by decide⟩
  norm_num [ScopeTracker.symbolToEditScope, ScopeTracker.findParentClassName, methodSym,
    outerClassSym, innerClassSym, ScopeTracker.isClassLike, ScopeTracker.classLikeKinds,
    Sym.kind, Sym.range, Sym.name, Range.containsRange, Range.containsPos, Pos.isBefore,
    ScopeTracker.mapSymbolKind]

/-- Non-empty names propagate to every node of the pre-order
flattening. -/
theorem ScopeTracker.name_nonempty_of_mem_preorder : ∀ (l : List Sym),
    ScopeTracker.allNamesNonempty l = true →
    ∀ s ∈ ScopeTracker.preorder l, (s.name == "") = false
  | [], _, s, hs => by simp [ScopeTracker.preorder] at hs
  | .mk n k rg cs :: rest, h, s, hs => by
    simp only [ScopeTracker.allNamesNonempty, Bool.and_eq_true] at h
    obtain ⟨⟨hn, hcs⟩, hrest⟩ := h
    simp only [ScopeTracker.preorder, List.mem_cons, List.mem_append] at hs
    rcases hs with rfl | hs | hs
    · simpa [Sym.name] using hn
    · exact ScopeTracker.name_nonempty_of_mem_preorder cs hcs s hs
    · exact ScopeTracker.name_nonempty_of_mem_preorder rest hrest s hs

/-- Model of `findParentClassName` is the first class-like containing node of
the pre-order walk (assuming non-empty names, which is what makes the
source's `if (nested)` truthiness test transparent). -/
theorem ScopeTracker.findParentClassName_eq_preorder : ∀ (m : Sym) (l : List Sym),
    ScopeTracker.allNamesNonempty l = true →
    ScopeTracker.findParentClassName m l
      = ((ScopeTracker.preorder l).find?
          (fun s => ScopeTracker.isClassLike s && s.range.containsRange m.range)).map Sym.name
  | m, [], _ => by simp [ScopeTracker.findParentClassName, ScopeTracker.preorder]
  | m, .mk n k rg cs :: rest, h => by
    simp only [ScopeTracker.allNamesNonempty, Bool.and_eq_true] at h
    obtain ⟨⟨hn, hcs⟩, hrest⟩ := h
    have ih1 := ScopeTracker.findParentClassName_eq_preorder m cs hcs
    have ih2 := ScopeTracker.findParentClassName_eq_preorder m rest hrest
    simp only [ScopeTracker.findParentClassName, ScopeTracker.preorder]
    by_cases hhead :
        ScopeTracker.isClassLike (.mk n k rg cs) && rg.containsRange m.range
    · rw [if_pos hhead]
      rw [List.find?_cons_of_pos _ (by simpa [Sym.range] using hhead)]
      simp [Sym.name]
    · rw [if_neg hhead]
      rw [List.find?_cons_of_neg _ (by simpa [Sym.range] using hhead)]
      rw [List.find?_append]
      cases hf : (ScopeTracker.preorder cs).find?
          (fun s => ScopeTracker.isClassLike s && s.range.containsRange m.range) with
      | some s =>
        have hcall : ScopeTracker.findParentClassName m cs = some s.name := by
          rw [ih1, hf]
          rfl
        rw [hcall]
        have hne : (s.name == "") = false :=
          ScopeTracker.name_nonempty_of_mem_preorder cs hcs s
            (List.mem_of_find?_eq_some hf)
        simp [hne]
      | none =>
        have hcall : ScopeTracker.findParentClassName m cs = none := by
          rw [ih1, hf]
          rfl
        rw [hcall]
        simp [ih2]

/-- C3 (amended): for a method-kind scope, `className` is the name of
the *first* class-like node containing the method's range in a
pre-order walk that tests each node before its children — i.e. the
outermost such class, not the innermost — and is `undefined` (with no
error) when no class-like node contains the range. -/
theorem method_class_name_preorder (m : Sym) (symbols : List Sym)
    (hname : ScopeTracker.allNamesNonempty symbols = true)
    (hm : ScopeTracker.mapSymbolKind m.kind = .Method) :
    (ScopeTracker.symbolToEditScope m symbols).className
      = ((ScopeTracker.preorder symbols).find?
          (fun s => ScopeTracker.isClassLike s && s.range.containsRange m.range)).map
          Sym.name := by
  unfold ScopeTracker.symbolToEditScope
  simp only [hm]
  rw [if_pos (by simp)]
  exact ScopeTracker.findParentClassName_eq_preorder m symbols hname

/-- C3 witness: the amended statement at the nested-class outline. -/
theorem method_class_name_preorder_witness :
    (ScopeTracker.symbolToEditScope methodSym [outerClassSym]).className
      = ((ScopeTracker.preorder [outerClassSym]).find?
          (fun s => ScopeTracker.isClassLike s
            && s.range.containsRange methodSym.range)).map Sym.name :=
  method_class_name_preorder methodSym [outerClassSym]
    (by simp [ScopeTracker.allNamesNonempty, outerClassSym, innerClassSym, methodSym])
    rfl

/-- C1 counterexample: a whitespace change together with a formatting
change (no code) classifies as `formatting` with significance
`!ignoreFormatting` (here insignificant), not as `mixed`/significant:
the `hasFormatting` branch fires before the final `mixed` fallback. -/
theorem classify_whitespace_formatting_combo_cex :
    [wsChange, fmtChange].mapM (ChangeFilter.classifySingleChange tsDocAB)
      = .ok [.whitespace, .formatting]
    ∧ ChangeFilter.classify defaultFilterConfig tsDocAB [wsChange, fmtChange]
      = .ok ⟨false, .formatting, ⟨⟨0, 0⟩, ⟨0, 5⟩⟩⟩ :=
  ⟨rfl, rfl⟩

/-- Boolean `any (· == a)` is membership. -/
theorem SingleClass.any_beq_iff (cls : List SingleClass) (a : SingleClass) :
    (cls.any (· == a)) = true ↔ a ∈ cls := by
  simp [List.any_eq_true]

/-- Reduction of `classify` once the per-change classifications are
known: the result is the source's combination if-chain over them. -/
theorem ChangeFilter.classify_reduce (cfg : FilterConfig) (doc : TextDocument)
    (changes : List ContentChange) (cls : List SingleClass)
    (hlen : (changes.length == 0) = false)
    (hmap : changes.mapM (ChangeFilter.classifySingleChange doc) = .ok cls) :
    ChangeFilter.classify cfg doc changes =
      .ok ⟨(if cls.any (· == SingleClass.code) then
              ((if cls.any (· == SingleClass.comment) || cls.any (· == SingleClass.whitespace)
                then ChangeType.mixed else ChangeType.code), true)
            else if cls.any (· == SingleClass.comment)
                && !cls.any (· == SingleClass.whitespace)
                && !cls.any (· == SingleClass.formatting) then
              (ChangeType.comment, !cfg.ignoreComments)
            else if cls.any (· == SingleClass.whitespace)
                && !cls.any (· == SingleClass.comment)
                && !cls.any (· == SingleClass.formatting) then
              (ChangeType.whitespace, !cfg.ignoreWhitespace)
            else if cls.any (· == SingleClass.formatting) then
              (ChangeType.formatting, !cfg.ignoreFormatting)
            else (ChangeType.mixed, true)).2,
           (if cls.any (· == SingleClass.code) then
              ((if cls.any (· == SingleClass.comment) || cls.any (· == SingleClass.whitespace)
                then ChangeType.mixed else ChangeType.code), true)
            else if cls.any (· == SingleClass.comment)
                && !cls.any (· == SingleClass.whitespace)
                && !cls.any (· == SingleClass.formatting) then
              (ChangeType.comment, !cfg.ignoreComments)
            else if cls.any (· == SingleClass.whitespace)
                && !cls.any (· == SingleClass.comment)
                && !cls.any (· == SingleClass.formatting) then
              (ChangeType.whitespace, !cfg.ignoreWhitespace)
            else if cls.any (· == SingleClass.formatting) then
              (ChangeType.formatting, !cfg.ignoreFormatting)
            else (ChangeType.mixed, true)).1,
           ChangeFilter.getCombinedRange changes⟩ := by
  unfold ChangeFilter.classify
  rw [hlen]
  simp only [Bool.false_eq_true, if_false]
  rw [hmap]

/-- C1 (amended): for non-empty changes none of which classifies as
code — all comment ⇒ `comment` with significance `!ignoreComments`;
all whitespace ⇒ `whitespace` with `!ignoreWhitespace`; *any*
formatting present ⇒ `formatting` with `!ignoreFormatting` (even mixed
with comment or whitespace changes); and `mixed`/significant arises
exactly for comment together with whitespace without formatting. -/
theorem classify_combination_no_code (cfg : FilterConfig) (doc : TextDocument)
    (changes : List ContentChange) (cls : List SingleClass)
    (hne : changes ≠ [])
    (hmap : changes.mapM (ChangeFilter.classifySingleChange doc) = .ok cls)
    (hnc : SingleClass.code ∉ cls) :
    (SingleClass.comment ∈ cls → SingleClass.whitespace ∉ cls →
      SingleClass.formatting ∉ cls →
      ChangeFilter.classify cfg doc changes
        = .ok ⟨!cfg.ignoreComments, .comment, ChangeFilter.getCombinedRange changes⟩)
    ∧ (SingleClass.whitespace ∈ cls → SingleClass.comment ∉ cls →
        SingleClass.formatting ∉ cls →
        ChangeFilter.classify cfg doc changes
          = .ok ⟨!cfg.ignoreWhitespace, .whitespace, ChangeFilter.getCombinedRange changes⟩)
    ∧ (SingleClass.formatting ∈ cls →
        ChangeFilter.classify cfg doc changes
          = .ok ⟨!cfg.ignoreFormatting, .formatting, ChangeFilter.getCombinedRange changes⟩)
    ∧ (SingleClass.comment ∈ cls → SingleClass.whitespace ∈ cls →
        SingleClass.formatting ∉ cls →
        ChangeFilter.classify cfg doc changes
          = .ok ⟨true, .mixed, ChangeFilter.getCombinedRange changes⟩) := by
  have hlen : (changes.length == 0) = false := by
    cases changes with
    | nil => exact absurd rfl hne
    | cons a l => rfl
  have hcode : (cls.any (· == SingleClass.code)) = false := by
    cases hae : cls.any (· == SingleClass.code) with
    | false => rfl
    | true => exact absurd ((SingleClass.any_beq_iff cls _).mp hae) hnc
  have hmemT : ∀ a : SingleClass, a ∈ cls → (cls.any (· == a)) = true :=
    fun a ha => (SingleClass.any_beq_iff cls a).mpr ha
  have hmemF : ∀ a : SingleClass, a ∉ cls → (cls.any (· == a)) = false := by
    intro a ha
    cases hae : cls.any (· == a) with
    | false => rfl
    | true => exact absurd ((SingleClass.any_beq_iff cls a).mp hae) ha
  rw [ChangeFilter.classify_reduce cfg doc changes cls hlen hmap]
  refine ⟨?_, ?_, ?_, ?_⟩
  · intro hc hw hf
    simp [hcode, hmemT _ hc, hmemF _ hw, hmemF _ hf]
  · intro hw hc hf
    simp [hcode, hmemT _ hw, hmemF _ hc, hmemF _ hf]
  · intro hf
    simp [hcode, hmemT _ hf]
  · intro hc hw hf
    simp [hcode, hmemT _ hc, hmemT _ hw, hmemF _ hf]

/-- C1 witness: a single comment-only change with default options is
insignificant with type `comment`. -/
theorem classify_combination_no_code_witness :
    ChangeFilter.classify defaultFilterConfig tsDocComment [commentChange]
      = .ok ⟨false, .comment, ⟨⟨0, 3⟩, ⟨0, 5⟩⟩⟩ :=
  (classify_combination_no_code defaultFilterConfig tsDocComment [commentChange]
      [.comment] (by simp) rfl (by decide)).1 (by decide) (by decide) (by decide)

/-- Reflexivity of the line-then-character order. -/
theorem posLePr_refl (p : Pos) : posLePr p p := by
  unfold posLePr
  omega

/-- Transitivity of the line-then-character order. -/
theorem posLePr_trans (p q r : Pos) (h1 : posLePr p q) (h2 : posLePr q r) :
    posLePr p r := by
  unfold posLePr at *
  omega

/-- One `combineStep` keeps the running start position: it is a lower
bound of the previous start and the change's start, and equals one of
them. -/
theorem EditBuffer.combineStep_start_facts (acc : EditBuffer.FoldAcc) (c : ContentChange) :
    posLePr (EditBuffer.accStart (EditBuffer.combineStep acc c)) (EditBuffer.accStart acc)
    ∧ posLePr (EditBuffer.accStart (EditBuffer.combineStep acc c)) c.range.start
    ∧ (EditBuffer.accStart (EditBuffer.combineStep acc c) = EditBuffer.accStart acc
       ∨ EditBuffer.accStart (EditBuffer.combineStep acc c) = c.range.start) := by
  have hs : EditBuffer.accStart (EditBuffer.combineStep acc c)
      = if (decide (c.range.start.line < acc.sl) ||
            c.range.start.line == acc.sl && decide (c.range.start.character < acc.sc)) = true
        then (⟨c.range.start.line, c.range.start.character⟩ : Pos)
        else EditBuffer.accStart acc := by
    simp only [EditBuffer.combineStep]
    by_cases h1 : (decide (c.range.start.line < acc.sl) ||
        c.range.start.line == acc.sl && decide (c.range.start.character < acc.sc)) = true
    · simp only [if_pos h1]
      split <;> rfl
    · simp only [if_neg h1]
      split <;> rfl
  rw [hs]
  by_cases h1 : (decide (c.range.start.line < acc.sl) ||
      c.range.start.line == acc.sl && decide (c.range.start.character < acc.sc)) = true
  · rw [if_pos h1]
    simp only [Bool.or_eq_true, Bool.and_eq_true, decide_eq_true_eq, beq_iff_eq] at h1
    refine ⟨?_, ?_, Or.inr rfl⟩
    · unfold posLePr EditBuffer.accStart
      dsimp only
      omega
    · exact posLePr_refl _
  · rw [if_neg h1]
    simp only [Bool.or_eq_true, Bool.and_eq_true, decide_eq_true_eq, beq_iff_eq] at h1
    refine ⟨posLePr_refl _, ?_, Or.inl rfl⟩
    unfold posLePr EditBuffer.accStart
    dsimp only
    omega

/-- One `combineStep` keeps the running end position: it is an upper
bound of the previous end and the change's end, and equals one of
them. -/
theorem EditBuffer.combineStep_end_facts (acc : EditBuffer.FoldAcc) (c : ContentChange) :
    posLePr (EditBuffer.accEnd acc) (EditBuffer.accEnd (EditBuffer.combineStep acc c))
    ∧ posLePr c.range.stop (EditBuffer.accEnd (EditBuffer.combineStep acc c))
    ∧ (EditBuffer.accEnd (EditBuffer.combineStep acc c) = EditBuffer.accEnd acc
       ∨ EditBuffer.accEnd (EditBuffer.combineStep acc c) = c.range.stop) := by
  have hs : EditBuffer.accEnd (EditBuffer.combineStep acc c)
      = if (decide (c.range.stop.line > acc.el) ||
            c.range.stop.line == acc.el && decide (c.range.stop.character > acc.ec)) = true
        then (⟨c.range.stop.line, c.range.stop.character⟩ : Pos)
        else EditBuffer.accEnd acc := by
    simp only [EditBuffer.combineStep]
    by_cases h1 : (decide (c.range.start.line < acc.sl) ||
        c.range.start.line == acc.sl && decide (c.range.start.character < acc.sc)) = true
    · simp only [if_pos h1]
      split <;> rfl
    · simp only [if_neg h1]
      split <;> rfl
  rw [hs]
  by_cases h1 : (decide (c.range.stop.line > acc.el) ||
      c.range.stop.line == acc.el && decide (c.range.stop.character > acc.ec)) = true
  · rw [if_pos h1]
    simp only [Bool.or_eq_true, Bool.and_eq_true, decide_eq_true_eq, beq_iff_eq] at h1
    refine ⟨?_, ?_, Or.inr rfl⟩
    · unfold posLePr EditBuffer.accEnd
      dsimp only
      omega
    · exact posLePr_refl _
  · rw [if_neg h1]
    simp only [Bool.or_eq_true, Bool.and_eq_true, decide_eq_true_eq, beq_iff_eq] at h1
    refine ⟨posLePr_refl _, ?_, Or.inl rfl⟩
    unfold posLePr EditBuffer.accEnd
    dsimp only
    omega

/-- The min-fold over a change list: the final start is a lower bound
of the initial one and of every change's start, and is attained. -/
theorem EditBuffer.foldl_start_facts (cs : List ContentChange) :
    ∀ (acc : EditBuffer.FoldAcc),
    posLePr (EditBuffer.accStart (cs.foldl EditBuffer.combineStep acc))
      (EditBuffer.accStart acc)
    ∧ (∀ c ∈ cs, posLePr (EditBuffer.accStart (cs.foldl EditBuffer.combineStep acc))
        c.range.start)
    ∧ (EditBuffer.accStart (cs.foldl EditBuffer.combineStep acc) = EditBuffer.accStart acc
       ∨ ∃ c ∈ cs, EditBuffer.accStart (cs.foldl EditBuffer.combineStep acc)
           = c.range.start) := by
  induction cs with
  | nil => exact fun acc => ⟨posLePr_refl _, by simp, Or.inl rfl⟩
  | cons c cs ih =>
    intro acc
    simp only [List.foldl_cons]
    obtain ⟨ih1, ih2, ih3⟩ := ih (EditBuffer.combineStep acc c)
    obtain ⟨s1, s2, s3⟩ := EditBuffer.combineStep_start_facts acc c
    refine ⟨posLePr_trans _ _ _ ih1 s1, ?_, ?_⟩
    · intro d hd
      rcases List.mem_cons.mp hd with rfl | hd
      · exact posLePr_trans _ _ _ ih1 s2
      · exact ih2 d hd
    · rcases ih3 with heq | ⟨d, hd, heq⟩
      · rcases s3 with hs | hs
        · exact Or.inl (heq.trans hs)
        · exact Or.inr ⟨c, List.mem_cons_self c cs, heq.trans hs⟩
      · exact Or.inr ⟨d, List.mem_cons_of_mem _ hd, heq⟩

/-- The max-fold over a change list: the final end is an upper bound of
the initial one and of every change's end, and is attained. -/
theorem EditBuffer.foldl_end_facts (cs : List ContentChange) :
    ∀ (acc : EditBuffer.FoldAcc),
    posLePr (EditBuffer.accEnd acc)
      (EditBuffer.accEnd (cs.foldl EditBuffer.combineStep acc))
    ∧ (∀ c ∈ cs, posLePr c.range.stop
        (EditBuffer.accEnd (cs.foldl EditBuffer.combineStep acc)))
    ∧ (EditBuffer.accEnd (cs.foldl EditBuffer.combineStep acc) = EditBuffer.accEnd acc
       ∨ ∃ c ∈ cs, EditBuffer.accEnd (cs.foldl EditBuffer.combineStep acc)
           = c.range.stop) := by
  induction cs with
  | nil => exact fun acc => ⟨posLePr_refl _, by simp, Or.inl rfl⟩
  | cons c cs ih =>
    intro acc
    simp only [List.foldl_cons]
    obtain ⟨ih1, ih2, ih3⟩ := ih (EditBuffer.combineStep acc c)
    obtain ⟨s1, s2, s3⟩ := EditBuffer.combineStep_end_facts acc c
    refine ⟨posLePr_trans _ _ _ s1 ih1, ?_, ?_⟩
    · intro d hd
      rcases List.mem_cons.mp hd with rfl | hd
      · exact posLePr_trans _ _ _ s2 ih1
      · exact ih2 d hd
    · rcases ih3 with heq | ⟨d, hd, heq⟩
      · rcases s3 with hs | hs
        · exact Or.inl (heq.trans hs)
        · exact Or.inr ⟨c, List.mem_cons_self c cs, heq.trans hs⟩
      · exact Or.inr ⟨d, List.mem_cons_of_mem _ hd, heq⟩

/-- The nested per-edit fold of `getCombinedRange` equals the flat
fold over all changes. -/
theorem EditBuffer.foldl_allChanges (edits : List BufferedEdit)
    (init : EditBuffer.FoldAcc) :
    edits.foldl (fun a e => e.changes.foldl EditBuffer.combineStep a) init
      = (EditBuffer.allChanges edits).foldl EditBuffer.combineStep init := by
  induction edits generalizing init with
  | nil => rfl
  | cons e rest ih =>
    simp only [List.foldl_cons, EditBuffer.allChanges, List.map_cons, List.flatten_cons,
      List.foldl_append]
    exact ih _

/-- C8 counterexample: a change starting at line
`Number.MAX_SAFE_INTEGER` hits the min-fold's sentinel check, so
`getCombinedRange` collapses to (0,0)-(0,0) — which does not even
cover the change's range — instead of the min/max combination. -/
theorem combined_range_sentinel_cex :
    EditBuffer.getCombinedRange sentinelEdits = ⟨⟨0, 0⟩, ⟨0, 0⟩⟩
    ∧ (Range.containsRange ⟨⟨0, 0⟩, ⟨0, 0⟩⟩
        ⟨⟨EditBuffer.MAX_SAFE_INTEGER, 0⟩, ⟨EditBuffer.MAX_SAFE_INTEGER, 1⟩⟩) = false
    ∧ EditBuffer.allChanges sentinelEdits
        = [⟨⟨⟨EditBuffer.MAX_SAFE_INTEGER, 0⟩, ⟨EditBuffer.MAX_SAFE_INTEGER, 1⟩⟩, 1, "x"⟩] := by
  refine ⟨rfl, by decide, rfl⟩

/-- C8 (amended): provided every change's start line is below the
`MAX_SAFE_INTEGER` sentinel, `getCombinedRange` returns (0,0)-(0,0)
when the edits carry no changes at all (in particular for the empty
list), and otherwise the smallest covering range: its start is the
minimum of the change starts and its end the maximum of the change
ends, in line-then-character order, both attained by some change. -/
theorem combined_range_min_max (edits : List BufferedEdit)
    (hlines : ∀ c ∈ EditBuffer.allChanges edits,
      c.range.start.line < EditBuffer.MAX_SAFE_INTEGER) :
    (EditBuffer.allChanges edits = [] →
      EditBuffer.getCombinedRange edits = ⟨⟨0, 0⟩, ⟨0, 0⟩⟩)
    ∧ (EditBuffer.allChanges edits ≠ [] →
        (∀ c ∈ EditBuffer.allChanges edits,
          posLePr (EditBuffer.getCombinedRange edits).start c.range.start
          ∧ posLePr c.range.stop (EditBuffer.getCombinedRange edits).stop)
        ∧ (∃ c ∈ EditBuffer.allChanges edits,
            (EditBuffer.getCombinedRange edits).start = c.range.start)
        ∧ (∃ c ∈ EditBuffer.allChanges edits,
            (EditBuffer.getCombinedRange edits).stop = c.range.stop)) := by
  constructor
  · intro hall
    unfold EditBuffer.getCombinedRange
    by_cases he : edits.isEmpty
    · rw [if_pos he]
    · rw [if_neg he, EditBuffer.foldl_allChanges, hall]
      simp only [List.foldl_nil]
      rw [if_pos (by simp)]
  · intro hne
    obtain ⟨c0, hc0⟩ := List.exists_mem_of_ne_nil (EditBuffer.allChanges edits) hne
    have he : edits.isEmpty = false := by
      cases edits with
      | nil => simp [EditBuffer.allChanges] at hne
      | cons _ _ => rfl
    obtain ⟨st1, st2, st3⟩ := EditBuffer.foldl_start_facts (EditBuffer.allChanges edits)
      ⟨EditBuffer.MAX_SAFE_INTEGER, EditBuffer.MAX_SAFE_INTEGER, 0, 0⟩
    obtain ⟨en1, en2, en3⟩ := EditBuffer.foldl_end_facts (EditBuffer.allChanges edits)
      ⟨EditBuffer.MAX_SAFE_INTEGER, EditBuffer.MAX_SAFE_INTEGER, 0, 0⟩
    have hstart : ∃ c ∈ EditBuffer.allChanges edits,
        EditBuffer.accStart ((EditBuffer.allChanges edits).foldl EditBuffer.combineStep
          ⟨EditBuffer.MAX_SAFE_INTEGER, EditBuffer.MAX_SAFE_INTEGER, 0, 0⟩)
          = c.range.start := by
      rcases st3 with heq | h
      · exfalso
        have hb := st2 c0 hc0
        rw [heq] at hb
        have hl := hlines c0 hc0
        unfold posLePr EditBuffer.accStart at hb
        dsimp at hb
        omega
      · exact h
    obtain ⟨cs, hcs, hcseq⟩ := hstart
    have hsl : (((EditBuffer.allChanges edits).foldl EditBuffer.combineStep
        ⟨EditBuffer.MAX_SAFE_INTEGER, EditBuffer.MAX_SAFE_INTEGER, 0, 0⟩).sl
          == EditBuffer.MAX_SAFE_INTEGER) = false := by
      have hline := congrArg Pos.line hcseq
      unfold EditBuffer.accStart at hline
      dsimp at hline
      rw [beq_eq_false_iff_ne, hline]
      exact Nat.ne_of_lt (hlines cs hcs)
    have hgc : EditBuffer.getCombinedRange edits
        = ⟨EditBuffer.accStart ((EditBuffer.allChanges edits).foldl EditBuffer.combineStep
            ⟨EditBuffer.MAX_SAFE_INTEGER, EditBuffer.MAX_SAFE_INTEGER, 0, 0⟩),
           EditBuffer.accEnd ((EditBuffer.allChanges edits).foldl EditBuffer.combineStep
            ⟨EditBuffer.MAX_SAFE_INTEGER, EditBuffer.MAX_SAFE_INTEGER, 0, 0⟩)⟩ := by
      unfold EditBuffer.getCombinedRange
      rw [if_neg (by simp [he]), EditBuffer.foldl_allChanges]
      rw [if_neg (by simp [hsl])]
      rfl
    rw [hgc]
    refine ⟨fun c hc => ⟨st2 c hc, en2 c hc⟩, ⟨cs, hcs, hcseq⟩, ?_⟩
    rcases en3 with heq | h
    · refine ⟨c0, hc0, ?_⟩
      have hb := en2 c0 hc0
      rw [heq] at hb
      have hz : c0.range.stop = (⟨0, 0⟩ : Pos) := by
        unfold posLePr EditBuffer.accEnd at hb
        dsimp at hb
        have h1 : c0.range.stop.line = 0 := by omega
        have h2 : c0.range.stop.character = 0 := by omega
        calc c0.range.stop = ⟨c0.range.stop.line, c0.range.stop.character⟩ := rfl
          _ = ⟨0, 0⟩ := by rw [h1, h2]
      rw [heq, hz]
      rfl
    · exact h

/-- C8 witness: two edits on lines 1 and 3 — the combined range spans
(1,2) to (3,4), attained at both ends. -/
theorem combined_range_min_max_witness :
    (∃ c ∈ EditBuffer.allChanges lineEdits13,
      (EditBuffer.getCombinedRange lineEdits13).start = c.range.start)
    ∧ (∃ c ∈ EditBuffer.allChanges lineEdits13,
        (EditBuffer.getCombinedRange lineEdits13).stop = c.range.stop)
    ∧ EditBuffer.getCombinedRange lineEdits13 = ⟨⟨1, 2⟩, ⟨3, 4⟩⟩
    ∧ EditBuffer.getCombinedRange [] = ⟨⟨0, 0⟩, ⟨0, 0⟩⟩ := by
  obtain ⟨h1, h2⟩ := combined_range_min_max lineEdits13 (by decide)
  obtain ⟨hb, hs, he⟩ := h2 (by decide)
  exact ⟨hs, he, rfl, (combined_range_min_max [] (by decide)).1 rfl⟩

end Vokt
